import Mathlib

/-!
Verification development for the NoGo MCTS agent of `src/agent.h`
(TCG2021-nogo).  The agent's own code (`MCTS_player` and its helpers) is
embedded faithfully below; the external collaborators `board.h` and
`action.h` are not part of the repository's sources, so the board oracle
and the placement probes are modelled from the specification's interface
description (empty target cell; a move is illegal when it leaves any
group with no liberties).

Floating point scores are modelled over `ℚ`; the transcendental parts of
the UCB formula (`sqrt`, `log`) are abstracted as function parameters
`fsqrt`, `flog`, which is enough for every claim below: the claims are
about which statistics feed the formula and how the comparison loops
behave, never about the numeric value of a square root.
-/

/-- Modelled from the spec: the three cell states of the external board
(`board.h` is absent from src/). -/
inductive Piece where
  | empty : Piece
  | black : Piece
  | white : Piece
deriving DecidableEq, BEq, Repr

instance : Inhabited Piece := ⟨Piece.empty⟩

/-- Modelled from the spec: a board snapshot, a `sx × sy` grid stored
row-major (`board.h` is absent from src/). -/
structure Board where
  sx : Nat
  sy : Nat
  cells : List Piece
deriving DecidableEq, Repr

instance : Inhabited Board := ⟨⟨0, 0, []⟩⟩

def cellAt (b : Board) (p : Nat) : Piece := b.cells.getD p Piece.empty

def setCell (b : Board) (p : Nat) (x : Piece) : Board :=
  { b with cells := b.cells.set p x }

/-- Linear index of the cell at (row + dr, col + dc) relative to linear
position `p`, or `none` when that lands outside the grid. -/
def offsetIdx (b : Board) (p : Nat) (dr dc : Int) : Option Nat :=
  let r : Int := (p / b.sy : Nat)
  let c : Int := (p % b.sy : Nat)
  let nr := r + dr
  let nc := c + dc
  if 0 ≤ nr ∧ nr < (b.sx : Int) ∧ 0 ≤ nc ∧ nc < (b.sy : Int) then
    some (nr.toNat * b.sy + nc.toNat)
  else none

def neighborsIdx (b : Board) (p : Nat) : List Nat :=
  [((-1 : Int), (0 : Int)), (1, 0), (0, -1), (0, 1)].filterMap
    (fun d => offsetIdx b p d.1 d.2)

/-- One step of the flood fill computing a group: add every same-colour
orthogonal neighbour of the current cell set. -/
def groupStep (b : Board) (col : Piece) (g : List Nat) : List Nat :=
  (g ++ g.flatMap (fun p => (neighborsIdx b p).filter (fun q => cellAt b q == col))).dedup

def groupFix (b : Board) (col : Piece) : Nat → List Nat → List Nat
  | 0, g => g
  | n + 1, g =>
    let g' := groupStep b col g
    if g'.length = g.length then g else groupFix b col n g'

/-- Modelled from the spec: the group (connected same-colour component)
of the stone at `p`. -/
def groupOf (b : Board) (p : Nat) : List Nat :=
  groupFix b (cellAt b p) b.cells.length [p]

def hasLiberty (b : Board) (g : List Nat) : Bool :=
  g.any (fun p => (neighborsIdx b p).any (fun q => cellAt b q == Piece.empty))

/-- Modelled from the spec: "a move is illegal if it leaves a group with
no liberties" — every occupied cell's group must keep a liberty. -/
def noDeadGroup (b : Board) : Bool :=
  (List.range b.cells.length).all
    (fun p => cellAt b p == Piece.empty || hasLiberty b (groupOf b p))

/-- Modelled from the spec: the board oracle's legality-check-and-apply.
Legal iff the target cell is an empty cell of the grid and the resulting
position has no libertyless group; returns the resulting board. -/
def applyMove (b : Board) (p : Nat) (who : Piece) : Option Board :=
  if p < b.cells.length ∧ cellAt b p = Piece.empty then
    let b' := setCell b p who
    if noDeadGroup b' then some b' else none
  else none

def emptyCount (b : Board) : Nat := b.cells.countP (fun x => x == Piece.empty)

/-- `action::place`: a cell index together with the side stored in the
action (all actions of the agent's `space` carry the constructor-time
side). -/
abbrev Move := Nat × Piece

/-- The `v` struct of agent.h: per-action statistics (`total`, `win`). -/
structure VStat where
  total : Nat
  win : Nat
deriving DecidableEq, Repr

instance : Inhabited VStat := ⟨⟨0, 0⟩⟩

/-- The `action2v` statistics table (`std::map<action::place, v>`),
modelled as an association list with unique keys. -/
abbrev Table := List (Move × VStat)

/-- Reading an entry; a missing key reads as the default `(0, 0)` entry,
matching `std::map::operator[]`'s value-initialised entry. -/
def vOf (tbl : Table) (m : Move) : VStat :=
  match tbl with
  | [] => ⟨0, 0⟩
  | (k, v) :: rest => if k = m then v else vOf rest m

/-- `action2v[m].total++; action2v[m].win += r` — the backpropagation
update, inserting the default entry first when absent. -/
def bumpV (tbl : Table) (m : Move) (r : Nat) : Table :=
  match tbl with
  | [] => [(m, ⟨1, r⟩)]
  | (k, v) :: rest =>
    if k = m then (k, ⟨v.total + 1, v.win + r⟩) :: rest
    else (k, v) :: bumpV rest m r

/-- `std::map::operator[]` read access: inserts the default `(0,0)`
entry when the key is absent, changing no stored statistic. -/
def touchV (tbl : Table) (m : Move) : Table :=
  match tbl with
  | [] => [(m, ⟨0, 0⟩)]
  | (k, v) :: rest =>
    if k = m then (k, v) :: rest else (k, v) :: touchV rest m

/-- The seeded engine (`std::default_random_engine`, a minimal standard
linear congruential generator): one state-advance step. -/
def engineStep (s : Nat) : Nat := (16807 * s) % 2147483647

/-- Remove the element at index `i`, returning it and the remainder. -/
def pickOut (l : List α) (i : Nat) : Option (α × List α) :=
  match l.drop i with
  | [] => none
  | x :: _ => some (x, l.take i ++ l.drop (i + 1))

/-- Engine-driven shuffle (`std::shuffle(first, last, engine)`),
modelled as repeatedly extracting the element selected by the next
engine output.  Returns the permuted list and the advanced engine. -/
def shuffleGo : Nat → List α → List α → Nat → List α × Nat
  | 0, rest, acc, e => (acc.reverse ++ rest, e)
  | n + 1, l, acc, e =>
    let e' := engineStep e
    match pickOut l (e' % l.length) with
    | some (x, l') => shuffleGo n l' (x :: acc) e'
    | none => (acc.reverse ++ l, e')

def shuffleL (l : List α) (e : Nat) : List α × Nat :=
  shuffleGo l.length l [] e

/-- `change_player()`: toggle the acting side (only black/white toggle;
any other value is left unchanged, exactly as in the source). -/
def other (who : Piece) : Piece :=
  match who with
  | Piece.black => Piece.white
  | Piece.white => Piece.black
  | Piece.empty => Piece.empty

/-- Probe result used by `count_around_empty`: modelled from the spec
(`action.h` is absent from src/), `move.apply2(b, who, dr, dc)` reports
`illegal_same_color` exactly when the probed offset cell holds a stone
of the probing colour. -/
def probeSame (b : Board) (p : Nat) (dr dc : Int) (who : Piece) : Bool :=
  match offsetIdx b p dr dc with
  | some q => cellAt b q == who
  | none => false

/-- Modelled from the spec (`action.h` absent): `apply_up` / `apply_down`
/ `apply_left` / `apply_right` attempt the oracle's apply at the cell one
step from the move's cell, mutating the passed board on success. -/
def applyOff (b : Board) (p : Nat) (dr dc : Int) (who : Piece) : Option Board :=
  (offsetIdx b p dr dc).bind (fun q => applyMove b q who)

def bIf (cond : Bool) : Nat := if cond then 1 else 0

/-- One direction block of `count_around_empty`: attempt the neighbour
placement at offset `(dr, dc)`; when legal, count 1 for the empty-count
and probe the three offsets `o1 o2 o3` for same-colour stones on the
board that already holds the neighbour stone. -/
def dirPair (b : Board) (p : Nat) (who : Piece) (dr dc : Int)
    (o1 o2 o3 : Int × Int) : Nat × Nat :=
  match applyOff b p dr dc who with
  | some afterB =>
    (1, bIf (probeSame afterB p o1.1 o1.2 who) +
        bIf (probeSame afterB p o2.1 o2.2 who) +
        bIf (probeSame afterB p o3.1 o3.2 who))
  | none => (0, 0)

/-- `MCTS_player::count_around_empty` (agent.h lines 163-197): the
result list is `[empty_count, up, down, left, right]`.  Each direction
counts only when the neighbour placement is legal, and its same-colour
probes run on the board that already contains the neighbour stone. -/
def count_around_empty (b : Board) (p : Nat) (who : Piece) : List Nat :=
  let up := dirPair b p who (-1) 0 (-1, -1) (-1, 1) (-2, 0)
  let down := dirPair b p who 1 0 (1, -1) (1, 1) (2, 0)
  let left := dirPair b p who 0 (-1) (-1, -1) (1, -1) (0, -2)
  let right := dirPair b p who 0 1 (-1, 1) (1, 1) (0, 2)
  [up.1 + down.1 + left.1 + right.1, up.2, down.2, left.2, right.2]

/-- `float weights[4] = {0.0, 0.03, 0.07, 0.1}` as exact rationals. -/
def weights : List ℚ := [0, 3/100, 7/100, 1/10]

/-- The heuristic bonus added to a child's score in `select` (lines
221-225) and `take_action` (lines 380-384):
`counts[0] * 0.01` plus `weights[counts[i]] * counts[i]` for
`i = 1, 2, 3` — the loop `for(int i = 1; i < 4; i++)` never reaches
`counts[4]`, so the right direction contributes no weight term. -/
def heuristicBonus (counts : List Nat) : ℚ :=
  (counts.getD 0 0 : ℚ) * (1/100)
  + weights.getD (counts.getD 1 0) 0 * (counts.getD 1 0 : ℚ)
  + weights.getD (counts.getD 2 0) 0 * (counts.getD 2 0 : ℚ)
  + weights.getD (counts.getD 3 0) 0 * (counts.getD 3 0 : ℚ)

/-- `MCTS_player::UCT_RAVE` (agent.h lines 149-157) with the float
transcendentals `log` and `sqrt` abstracted as `flog`, `fsqrt`.
`winRate` and the exploration denominator come from the statistics table
keyed on the child's move; the numerator inside `flog` is the root
node's own counter when the child's parent is the root, else the table
entry of the parent's move. -/
def UCT_RAVE (flog fsqrt : ℚ → ℚ) (cQ : ℚ) (tbl : Table)
    (parentIsRoot : Bool) (rootTotal : Nat) (parentMove childMove : Move) : ℚ :=
  let win_rate : ℚ := ((vOf tbl childMove).win : ℚ) / ((vOf tbl childMove).total : ℚ)
  let ex : ℚ :=
    if parentIsRoot then fsqrt (flog (rootTotal : ℚ) / ((vOf tbl childMove).total : ℚ))
    else fsqrt (flog ((vOf tbl parentMove).total : ℚ) / ((vOf tbl childMove).total : ℚ))
  win_rate + cQ * ex

/-- The scan of `cur`'s children inside `MCTS_player::select` (lines
212-231).  `best_uct` starts at `-1`; a child whose action has zero
recorded visits short-circuits the scan; otherwise, when
`uct > best_uct` holds, the code executes `uct = best_uct;` — a write
into the loop-local variable, so `best_uct` itself is never updated —
and records the child as `best_child`. -/
def selectScan (score : α → ℚ) (zeroV : α → Bool) :
    List α → ℚ → Option α → Option α
  | [], _, best => best
  | c :: rest, best_uct, best =>
    if zeroV c then some c
    else
      let uct := score c
      if best_uct < uct then selectScan score zeroV rest best_uct (some c)
      else selectScan score zeroV rest best_uct best

def selectBestChild (score : α → ℚ) (zeroV : α → Bool) (cs : List α) : Option α :=
  selectScan score zeroV cs (-1) none

/-- The children whose score `select`'s scan actually computes: every
child strictly before the first zero-visit one (the scan breaks there
before any further `UCT_RAVE` read). -/
def scoredChildren (zeroV : α → Bool) : List α → List α
  | [] => []
  | c :: rest => if zeroV c then [] else c :: scoredChildren zeroV rest

/-- The final root-child scan of `MCTS_player::take_action` (lines
377-390): same score, no zero-visit short-circuit, and here the
maximum tracking is written correctly (`best_uct = uct`). -/
def finalScanGo (score : α → ℚ) (moveOf : α → Move) :
    List α → ℚ → Option Move → Option Move
  | [], _, best => best
  | c :: rest, best_uct, best =>
    let uct := score c
    if best_uct < uct then finalScanGo score moveOf rest uct (some (moveOf c))
    else finalScanGo score moveOf rest best_uct best

/-- The `node` struct of agent.h, arena-allocated: `parent` and
`children` are indices into the node list (the root sits at index 0),
mirroring the pointer links of the source. -/
structure ANode where
  total : Nat
  win : Nat
  move : Move
  parent : Nat
  children : List Nat
  state : Board
deriving DecidableEq, Repr

instance : Inhabited ANode :=
  ⟨⟨0, 0, (0, Piece.empty), 0, [], default⟩⟩

abbrev GTree := List ANode

def getNode (t : GTree) (i : Nat) : ANode := t.getD i default

def modifyAt (t : GTree) (i : Nat) (f : ANode → ANode) : GTree :=
  match t, i with
  | [], _ => []
  | a :: rest, 0 => f a :: rest
  | a :: rest, j + 1 => a :: modifyAt rest j f

/-- The per-child score used by both scans: `get_value(child)` (which is
`UCT_RAVE`) plus the heuristic bonus computed by
`count_around_empty(child, root)` — note the source passes `root`, so
the probes always run on the root's state, with the current `who`. -/
def scoreOf (flog fsqrt : ℚ → ℚ) (cQ : ℚ) (t : GTree) (tbl : Table)
    (who : Piece) (childIdx : Nat) : ℚ :=
  let child := getNode t childIdx
  UCT_RAVE flog fsqrt cQ tbl (child.parent == 0) (getNode t 0).total
    (getNode t child.parent).move child.move
  + heuristicBonus (count_around_empty (getNode t 0).state child.move.1 who)

def zeroVisitAt (t : GTree) (tbl : Table) (childIdx : Nat) : Bool :=
  (vOf tbl (getNode t childIdx).move).total == 0

/-- `MCTS_player::select` (lines 206-238): starting at the root with
`who = who_cpy`, repeatedly shuffle the current node's children (the
shuffled order is stored back into the node), run the scan, descend into
the chosen child and toggle the player.  Fuel bounds the descent depth
(child indices strictly exceed their parent's, so the tree size is
enough fuel); a `none` models the null-pointer dereference the source
would perform if the scan chose no child. -/
def selectGo (flog fsqrt : ℚ → ℚ) (cQ : ℚ) :
    Nat → GTree → Table → Nat → Piece → Nat → Option (GTree × Nat × Piece × Nat)
  | 0, _, _, _, _, _ => none
  | fuel + 1, t, tbl, cur, who, e =>
    if (getNode t cur).children = [] then some (t, cur, who, e)
    else
      let se := shuffleL (getNode t cur).children e
      let t' := modifyAt t cur (fun a => { a with children := se.1 })
      match selectBestChild (scoreOf flog fsqrt cQ t' tbl who) (zeroVisitAt t' tbl) se.1 with
      | none => none
      | some childIdx => selectGo flog fsqrt cQ fuel t' tbl childIdx (other who) se.2

/-- The legal moves of `expand`'s loop over `space`, with the boards
they produce. -/
def expandLegal (b : Board) (who : Piece) (sp : List Move) : List (Move × Board) :=
  sp.filterMap (fun m => (applyMove b m.1 who).map (fun b' => (m, b')))

/-- `MCTS_player::expand` (lines 240-253): iterate `space` in its
current order, keep the legal applications for the current `who`, and
materialize one child per legal move, appended to the arena. -/
def expandAt (t : GTree) (leaf : Nat) (who : Piece) (sp : List Move) : GTree :=
  let legal := expandLegal (getNode t leaf).state who sp
  let base := t.length
  let idxs := (List.range legal.length).map (fun i => i + base)
  let newNodes := legal.map (fun mb =>
    { total := 0, win := 0, move := mb.1, parent := leaf, children := [], state := mb.2 : ANode })
  modifyAt t leaf (fun a => { a with children := a.children ++ idxs }) ++ newNodes

/-- `MCTS_player::random_child` (lines 255-259): shuffle the leaf's
children (stored back) and take the first. -/
def random_child (t : GTree) (leaf : Nat) (e : Nat) : GTree × Nat × Nat :=
  let se := shuffleL (getNode t leaf).children e
  (modifyAt t leaf (fun a => { a with children := se.1 }), se.1.headD 0, se.2)

/-- `MCTS_player::is_terminal` (lines 266-280): the current side has no
legal move; the winner is then the other side (`find_winner`). -/
def isTerminalPos (b : Board) (who : Piece) (sp : List Move) : Bool :=
  sp.countP (fun m => (applyMove b m.1 who).isSome) == 0

def firstLegal (b : Board) (who : Piece) : List Move → Option Board
  | [] => none
  | m :: rest =>
    match applyMove b m.1 who with
    | some b' => some b'
    | none => firstLegal b who rest

/-- The rollout loop of `MCTS_player::simulation` (lines 286-297): while
the position is not terminal, shuffle `space` and play the first legal
move found, toggling the side each step.  Returns the winner, the final
`space` order, the advanced engine and the number of moves played;
`none` only when the fuel runs out (never, for fuel ≥ the number of
empty cells — see `simulateGo_total`). -/
def simulateGo : Nat → Board → Piece → List Move → Nat →
    Option (Piece × List Move × Nat × Nat)
  | 0, b, who, sp, e =>
    if isTerminalPos b who sp then some (other who, sp, e, 0) else none
  | fuel + 1, b, who, sp, e =>
    if isTerminalPos b who sp then some (other who, sp, e, 0)
    else
      let se := shuffleL sp e
      match firstLegal b who se.1 with
      | some b' =>
        (simulateGo fuel b' (other who) se.1 se.2).map
          (fun r => (r.1, r.2.1, r.2.2.1, r.2.2.2 + 1))
      | none => none

/-- `MCTS_player::simulation` (lines 282-302): copy the child's state,
toggle the player before the first legality test, roll out to a
terminal position, and report 1 iff the winner is the search side
`who_cpy`. -/
def simulationFrom (childState : Board) (who whoCpy : Piece)
    (sp : List Move) (e : Nat) : Option (Nat × List Move × Nat) :=
  (simulateGo (emptyCount childState) childState (other who) sp e).map
    (fun r => ((if r.1 == whoCpy then 1 else 0), r.2.1, r.2.2.1))

/-- The table half of `MCTS_player::backpropagate` (lines 304-318): walk
from the simulated node up to (not including) the root at index 0,
bumping the table entry of each node's move.  Fuel bounds the walk
(parent indices strictly decrease). -/
def backpropGo : Nat → GTree → Table → Nat → Nat → Table
  | 0, _, tbl, _, _ => tbl
  | fuel + 1, t, tbl, cur, res =>
    if cur = 0 then tbl
    else backpropGo fuel t (bumpV tbl (getNode t cur).move res) (getNode t cur).parent res

/-- `MCTS_player::backpropagate`: the table walk plus
`root->total++; root->win += result;`. -/
def backpropagate (t : GTree) (tbl : Table) (startIdx : Nat) (res : Nat) :
    GTree × Table :=
  (modifyAt t 0 (fun a => { a with total := a.total + 1, win := a.win + res }),
   backpropGo t.length t tbl startIdx res)

/-- The whole mutable state one `mcts()` iteration touches. -/
structure SState where
  tree : GTree
  tbl : Table
  space : List Move
  eng : Nat
  whoCpy : Piece
deriving DecidableEq, Repr

/-- One iteration of the `while(1)` loop in `MCTS_player::mcts` (lines
324-342): select a leaf, expand it; if the expansion produced no
children simulate and backpropagate on the leaf itself, else simulate
from a uniformly chosen new child and backpropagate from it. -/
def mctsIter (flog fsqrt : ℚ → ℚ) (cQ : ℚ) (st : SState) : Option SState :=
  match selectGo flog fsqrt cQ st.tree.length st.tree st.tbl 0 st.whoCpy st.eng with
  | none => none
  | some (t1, leaf, who1, e1) =>
    let t2 := expandAt t1 leaf who1 st.space
    if (getNode t2 leaf).children = [] then
      match simulationFrom (getNode t2 leaf).state who1 st.whoCpy st.space e1 with
      | none => none
      | some (res, sp', e2) =>
        let tt := backpropagate t2 st.tbl leaf res
        some { tree := tt.1, tbl := tt.2, space := sp', eng := e2, whoCpy := st.whoCpy }
    else
      let rc := random_child t2 leaf e1
      match simulationFrom (getNode rc.1 rc.2.1).state who1 st.whoCpy st.space rc.2.2 with
      | none => none
      | some (res, sp', e2) =>
        let tt := backpropagate rc.1 st.tbl rc.2.1 res
        some { tree := tt.1, tbl := tt.2, space := sp', eng := e2, whoCpy := st.whoCpy }

/-- Modelled from the spec: the search loop driven by the configured
fixed iteration count `n` in place of the wall-clock budget
(`use_time[ply] + 7` seconds in the source); the loop body is the
source's. -/
def mctsLoop (flog fsqrt : ℚ → ℚ) (cQ : ℚ) : Nat → SState → Option SState
  | 0, st => some st
  | n + 1, st =>
    match mctsIter flog fsqrt cQ st with
    | none => none
    | some st' => mctsLoop flog fsqrt cQ n st'

/-- The final root-move choice of `take_action` (lines 377-390): score
every root child with `get_value + bonus` (no zero-visit guard) and keep
the maximum; `none` is the default-constructed `action()`. -/
def finalChoice (flog fsqrt : ℚ → ℚ) (cQ : ℚ) (st : SState) : Option Move :=
  finalScanGo (scoreOf flog fsqrt cQ st.tree st.tbl st.whoCpy)
    (fun ci => (getNode st.tree ci).move)
    (getNode st.tree 0).children (-1) none

/-- A fresh root node for `take_action`'s `root = new node; root->state = state`. -/
def rootNode (b : Board) : ANode :=
  { total := 0, win := 0, move := (0, Piece.empty), parent := 0, children := [], state := b }

/-- The agent's `space` in constructor order: one `action::place(i, who)`
per cell, carrying the constructor-time side. -/
def initSpace (b : Board) (who : Piece) : List Move :=
  (List.range (b.sx * b.sy)).map (fun i => (i, who))

/-- The whole search of `take_action` in search mode with a fixed
iteration count: build the fresh root, run the loop, and score the root
children; returns the final tree, statistics table and chosen move. -/
def fullSearch (flog fsqrt : ℚ → ℚ) (cQ : ℚ) (n : Nat) (seed : Nat)
    (rootState : Board) (whoC : Piece) : Option (GTree × Table × Option Move) :=
  let st0 : SState :=
    { tree := [rootNode rootState], tbl := [], space := initSpace rootState whoC,
      eng := seed, whoCpy := whoC }
  (mctsLoop flog fsqrt cQ n st0).map
    (fun st => (st.tree, st.tbl, finalChoice flog fsqrt cQ st))


instance : Inhabited SState := ⟨⟨[], [], [], 0, Piece.empty⟩⟩

/-- The per-ply time budget table of `MCTS_player` (lines 420-422),
36 entries, as exact rationals. -/
def use_time : List ℚ :=
  [0.35, 0.4, 0.45, 0.5, 0.6, 0.7, 0.8, 0.9, 1, 1, 1.1, 1.2,
   1.3, 1.4, 1.5, 1.55, 1.6, 1.65, 1.65, 1.6, 1.55, 1.5, 1.4,
   1.3, 1.2, 1.1, 1, 1, 0.9, 0.8, 0.7, 0.6, 0.5, 0.45, 0.4, 0.35]

/-- The part of the agent's state driving the `use_time` lookup. -/
structure MState where
  ply : Nat
deriving DecidableEq, Repr

/-- `open_episode` (lines 396-402): `ply = 0`. -/
def open_episode_ply : MState := ⟨0⟩

/-- One search-mode `take_action` call: `mcts()` reads `use_time[ply]`
(line 321) and afterwards `ply++` runs (line 375).  Returns the index
the lookup used together with the successor state. -/
def take_action_step (s : MState) : Nat × MState := (s.ply, ⟨s.ply + 1⟩)

def runSearchCalls : Nat → MState → MState
  | 0, s => s
  | k + 1, s => runSearchCalls k (take_action_step s).2

/-- The two operations `MCTS_player` ever performs on `action2v`:
the backpropagation increment (`record`, with the simulation result) and
the defaulting read access of `operator[]` (`touch`). -/
inductive TOp where
  | record : Move → Nat → TOp
  | touch : Move → TOp
deriving DecidableEq, Repr

def applyTOp (tbl : Table) (op : TOp) : Table :=
  match op with
  | TOp.record m r => bumpV tbl m r
  | TOp.touch m => touchV tbl m

def applyTOps (tbl : Table) : List TOp → Table
  | [] => tbl
  | op :: rest => applyTOps (applyTOp tbl op) rest

/-- Every `record` carries a simulation result, which is 0 or 1. -/
def resBounded : TOp → Bool
  | TOp.record _ r => r ≤ 1
  | TOp.touch _ => true

/-- The claimed table invariant: `wins <= visits` for every entry. -/
def tblInv (tbl : Table) : Prop :=
  ∀ m : Move, (vOf tbl m).win ≤ (vOf tbl m).total

/-- The claim's (C3) reading of the selection score: `parentVisits`
taken from the statistics table keyed on the *grandparent's* incoming
move when the parent is not the tree root, else the root's own counter. -/
def specScoreGrand (flog fsqrt : ℚ → ℚ) (cQ : ℚ) (tbl : Table)
    (parentIsRoot : Bool) (rootTotal : Nat) (grandMove childMove : Move) : ℚ :=
  let winRate : ℚ := ((vOf tbl childMove).win : ℚ) / ((vOf tbl childMove).total : ℚ)
  let parentVisits : ℚ :=
    if parentIsRoot then (rootTotal : ℚ) else ((vOf tbl grandMove).total : ℚ)
  winRate + cQ * fsqrt (flog parentVisits / ((vOf tbl childMove).total : ℚ))

/-- The amended reading: `parentVisits` is the table visit count of the
*parent's* incoming move when the parent is not the tree root. -/
def specScoreParent (flog fsqrt : ℚ → ℚ) (cQ : ℚ) (tbl : Table)
    (parentIsRoot : Bool) (rootTotal : Nat) (parentMove childMove : Move) : ℚ :=
  let winRate : ℚ := ((vOf tbl childMove).win : ℚ) / ((vOf tbl childMove).total : ℚ)
  let parentVisits : ℚ :=
    if parentIsRoot then (rootTotal : ℚ) else ((vOf tbl parentMove).total : ℚ)
  winRate + cQ * fsqrt (flog parentVisits / ((vOf tbl childMove).total : ℚ))

/-- Is the offset cell inside the grid and empty? -/
def isEmptyOff (b : Board) (p : Nat) (dr dc : Int) : Bool :=
  match offsetIdx b p dr dc with
  | some q => cellAt b q == Piece.empty
  | none => false

def emptyNbrCount (b : Board) (p : Nat) : Nat :=
  bIf (isEmptyOff b p (-1) 0) + bIf (isEmptyOff b p 1 0) +
  bIf (isEmptyOff b p 0 (-1)) + bIf (isEmptyOff b p 0 1)

/-- The number of same-colour stones at a direction's three probe
offsets, read off a given board. -/
def probeCount3 (b : Board) (p : Nat) (o1 o2 o3 : Int × Int) (who : Piece) : Nat :=
  bIf (probeSame b p o1.1 o1.2 who) + bIf (probeSame b p o2.1 o2.2 who) +
  bIf (probeSame b p o3.1 o3.2 who)

/-- The heuristic bonus exactly as claim C4 states it: 0.01 per *empty*
orthogonal neighbour cell, plus for each of the 4 directions the plain
weight 0.0/0.03/0.07/0.10 selected by that direction's same-colour probe
count (probed on the current board, with no legality gate). -/
def specBonusC4 (b : Board) (p : Nat) (who : Piece) : ℚ :=
  (emptyNbrCount b p : ℚ) * (1/100)
  + weights.getD (probeCount3 b p (-1, -1) (-1, 1) (-2, 0) who) 0
  + weights.getD (probeCount3 b p (1, -1) (1, 1) (2, 0) who) 0
  + weights.getD (probeCount3 b p (-1, -1) (1, -1) (0, -2) who) 0
  + weights.getD (probeCount3 b p (-1, 1) (1, 1) (0, 2) who) 0

/-- The amended description of the bonus the code computes: 0.01 per
direction whose own-stone neighbour placement is *legal*; for the up,
down and left directions additionally `weights[c] * c` where `c` is
that direction's same-colour probe count; the right direction's weight
term is skipped by the `for(int i = 1; i < 4; i++)` loop. -/
def amendedBonusC4 (b : Board) (p : Nat) (who : Piece) : ℚ :=
  (if (applyOff b p (-1) 0 who).isSome then
    1/100 + weights.getD (probeCount3 b p (-1, -1) (-1, 1) (-2, 0) who) 0 *
      (probeCount3 b p (-1, -1) (-1, 1) (-2, 0) who : ℚ)
   else 0)
  + (if (applyOff b p 1 0 who).isSome then
    1/100 + weights.getD (probeCount3 b p (1, -1) (1, 1) (2, 0) who) 0 *
      (probeCount3 b p (1, -1) (1, 1) (2, 0) who : ℚ)
   else 0)
  + (if (applyOff b p 0 (-1) who).isSome then
    1/100 + weights.getD (probeCount3 b p (-1, -1) (1, -1) (0, -2) who) 0 *
      (probeCount3 b p (-1, -1) (1, -1) (0, -2) who : ℚ)
   else 0)
  + (if (applyOff b p 0 1 who).isSome then (1 : ℚ)/100 else 0)

/-- A 1x1 board, used by the pointwise score counterexamples (the
heuristic probes all fall outside such a board, so the bonus is 0). -/
def oneBoard : Board := ⟨1, 1, [Piece.empty]⟩

/-- Concrete tree for the selection-scan demonstration: a root with
three visited children. -/
def bugTree : GTree :=
  [{ total := 17, win := 9, move := (0, Piece.empty), parent := 0,
     children := [1, 2, 3], state := oneBoard },
   { total := 0, win := 0, move := (0, Piece.black), parent := 0,
     children := [], state := oneBoard },
   { total := 0, win := 0, move := (2, Piece.black), parent := 0,
     children := [], state := oneBoard },
   { total := 0, win := 0, move := (4, Piece.black), parent := 0,
     children := [], state := oneBoard }]

def bugTbl : Table :=
  [((0, Piece.black), ⟨2, 1⟩), ((2, Piece.black), ⟨10, 9⟩), ((4, Piece.black), ⟨5, 1⟩)]

/-- Concrete chain root → grandparent → parent → child for the
parent-visits counterexample. -/
def raveTree : GTree :=
  [{ total := 20, win := 10, move := (0, Piece.empty), parent := 0,
     children := [1], state := oneBoard },
   { total := 0, win := 0, move := (1, Piece.black), parent := 0,
     children := [2], state := oneBoard },
   { total := 0, win := 0, move := (2, Piece.black), parent := 1,
     children := [3], state := oneBoard },
   { total := 0, win := 0, move := (3, Piece.black), parent := 2,
     children := [], state := oneBoard }]

def raveTbl : Table :=
  [((1, Piece.black), ⟨9, 0⟩), ((2, Piece.black), ⟨4, 0⟩), ((3, Piece.black), ⟨1, 0⟩)]

/-- Concrete root with one visited child (arena 1) and one zero-visit
child (arena 2). -/
def c5Tree : GTree :=
  [{ total := 3, win := 2, move := (0, Piece.empty), parent := 0,
     children := [1, 2], state := oneBoard },
   { total := 0, win := 0, move := (5, Piece.black), parent := 0,
     children := [], state := oneBoard },
   { total := 0, win := 0, move := (7, Piece.black), parent := 0,
     children := [], state := oneBoard }]

def c5Tbl : Table := [((5, Piece.black), ⟨1, 1⟩)]

/-- A 1x4 NoGo position `[., W, ., .]` in which black (to move) has two
legal placements (cells 2 and 3). -/
def c2Board : Board :=
  ⟨1, 4, [Piece.empty, Piece.white, Piece.empty, Piece.empty]⟩

/-- One full search iteration (`n = 1` in place of the time budget) on
`c2Board` for black with seed 1. -/
def c2Run : Option SState :=
  mctsLoop id id 1 1
    { tree := [rootNode c2Board], tbl := [], space := initSpace c2Board Piece.black,
      eng := 1, whoCpy := Piece.black }

def c2St : SState := c2Run.getD default

/-- A 1x3 NoGo position `[., W, .]` in which black (to move) has no
legal placement at all: both empty cells are suicides. -/
def c6Board : Board := ⟨1, 3, [Piece.empty, Piece.white, Piece.empty]⟩

/-- One full select/expand/simulate/backpropagate cycle from the
root-only tree on `c6Board` for black. -/
def c6Run : Option SState :=
  mctsIter id id 1
    { tree := [rootNode c6Board], tbl := [], space := initSpace c6Board Piece.black,
      eng := 1, whoCpy := Piece.black }

def c6St : SState := c6Run.getD default

/-- A 4x4 board with black stones at (2,0) and (2,2); the candidate
move sits at (1,1) (linear index 5). -/
def c4Board : Board :=
  ⟨4, 4, [Piece.empty, Piece.empty, Piece.empty, Piece.empty,
          Piece.empty, Piece.empty, Piece.empty, Piece.empty,
          Piece.black, Piece.empty, Piece.black, Piece.empty,
          Piece.empty, Piece.empty, Piece.empty, Piece.empty]⟩

/-- An empty 1x2 board for the rollout-bound witness. -/
def w9Board : Board := ⟨1, 2, [Piece.empty, Piece.empty]⟩
/-- A small operation script for the table-invariant witness. -/
def c7Ops : List TOp :=
  [TOp.record (0, Piece.black) 1, TOp.touch (1, Piece.black),
   TOp.record (0, Piece.black) 0]

theorem pickOut_perm (l : List α) (i : Nat) (x : α) (l' : List α)
    (hp : pickOut l i = some (x, l')) : l.Perm (x :: l') := by
  unfold pickOut at hp
  cases hd : l.drop i with
  | nil => rw [hd] at hp; exact absurd hp (by simp)
  | cons y t =>
    rw [hd] at hp
    simp only [Option.some.injEq, Prod.mk.injEq] at hp
    obtain ⟨hx, hl'⟩ := hp
    have hdrop : l.drop (i + 1) = t := by
      have h1 : (l.drop i).tail = l.drop (i + 1) := by
        rw [← List.drop_one, List.drop_drop, Nat.add_comm]
      rw [← h1, hd]
      rfl
    have hsplit : l = l.take i ++ y :: t := by
      conv_lhs => rw [← List.take_append_drop i l]
      rw [hd]
    subst hx
    rw [← hl', hdrop]
    conv_lhs => rw [hsplit]
    exact List.perm_middle

theorem shuffleGo_perm : ∀ (n : Nat) (l acc : List α) (e : Nat),
    ((shuffleGo n l acc e).1).Perm (acc.reverse ++ l)
  | 0, l, acc, e => by simp [shuffleGo]
  | n + 1, l, acc, e => by
    simp only [shuffleGo]
    cases hp : pickOut l ((engineStep e) % l.length) with
    | none => simp
    | some xl =>
      obtain ⟨x, l'⟩ := xl
      have hperm : l.Perm (x :: l') := pickOut_perm _ _ _ _ hp
      have ih := shuffleGo_perm n l' (x :: acc) (engineStep e)
      refine ih.trans ?_
      have hEq : (x :: acc).reverse ++ l' = acc.reverse ++ (x :: l') := by
        simp
      rw [hEq]
      exact (List.Perm.append_left acc.reverse hperm.symm)

theorem shuffleL_perm (l : List α) (e : Nat) : ((shuffleL l e).1).Perm l := by
  simpa using shuffleGo_perm l.length l [] e


theorem applyMove_eq_some (b : Board) (p : Nat) (who : Piece) (b' : Board)
    (h : applyMove b p who = some b') :
    b' = setCell b p who ∧ p < b.cells.length ∧ cellAt b p = Piece.empty := by
  unfold applyMove at h
  by_cases hc : p < b.cells.length ∧ cellAt b p = Piece.empty
  · rw [if_pos hc] at h
    by_cases hd : noDeadGroup (setCell b p who)
    · simp only [if_pos hd, Option.some.injEq] at h
      exact ⟨h.symm, hc⟩
    · simp [if_neg hd] at h
  · simp [if_neg hc] at h

theorem countP_set_succ : ∀ (l : List Piece) (p : Nat) (x : Piece),
    p < l.length → l.getD p Piece.empty = Piece.empty → x ≠ Piece.empty →
    (l.set p x).countP (fun y => y == Piece.empty) + 1 =
      l.countP (fun y => y == Piece.empty)
  | [], p, x, h, _, _ => absurd h (by simp)
  | a :: rest, 0, x, _, hget, hx => by
    simp only [List.getD_cons_zero] at hget
    subst hget
    have hxb : (x == Piece.empty) = false := by
      cases x with
      | empty => exact absurd rfl hx
      | black => rfl
      | white => rfl
    simp [List.countP_cons, hxb]
    rfl
  | a :: rest, p + 1, x, h, hget, hx => by
    have h' : p < rest.length := by
      simpa using Nat.lt_of_succ_lt_succ h
    have hget' : rest.getD p Piece.empty = Piece.empty := by
      simpa using hget
    have ih := countP_set_succ rest p x h' hget' hx
    simp only [List.set_cons_succ, List.countP_cons]
    omega

theorem emptyCount_applyMove (b b' : Board) (p : Nat) (who : Piece)
    (hw : who ≠ Piece.empty) (h : applyMove b p who = some b') :
    emptyCount b' + 1 = emptyCount b := by
  obtain ⟨hb', hlt, hcell⟩ := applyMove_eq_some b p who b' h
  subst hb'
  unfold emptyCount setCell
  exact countP_set_succ b.cells p who hlt hcell hw

theorem firstLegal_eq_some (b : Board) (who : Piece) :
    ∀ (sp : List Move) (b' : Board), firstLegal b who sp = some b' →
    ∃ m ∈ sp, applyMove b m.1 who = some b'
  | [], b', h => by simp [firstLegal] at h
  | m :: rest, b', h => by
    unfold firstLegal at h
    cases ha : applyMove b m.1 who with
    | some bb =>
      rw [ha] at h
      simp only [Option.some.injEq] at h
      subst h
      exact ⟨m, by simp, ha⟩
    | none =>
      rw [ha] at h
      obtain ⟨m', hm', happ⟩ := firstLegal_eq_some b who rest b' h
      exact ⟨m', by simp [hm'], happ⟩

theorem firstLegal_isSome (b : Board) (who : Piece) :
    ∀ (sp : List Move), (∃ m ∈ sp, (applyMove b m.1 who).isSome) →
    (firstLegal b who sp).isSome
  | [], h => by simp at h
  | m :: rest, h => by
    unfold firstLegal
    cases ha : applyMove b m.1 who with
    | some bb => simp
    | none =>
      obtain ⟨m', hm', hs⟩ := h
      rcases List.mem_cons.mp hm' with heq | hmem
      · subst heq; rw [ha] at hs; simp at hs
      · exact firstLegal_isSome b who rest ⟨m', hmem, hs⟩

theorem notTerminal_exists_legal (b : Board) (who : Piece) (sp : List Move)
    (h : isTerminalPos b who sp = false) :
    ∃ m ∈ sp, (applyMove b m.1 who).isSome := by
  unfold isTerminalPos at h
  by_contra hno
  push_neg at hno
  have : sp.countP (fun m => (applyMove b m.1 who).isSome) = 0 := by
    apply List.countP_eq_zero.mpr
    intro m hm
    simp only [Bool.not_eq_true]
    have hmm := hno m hm
    exact Bool.eq_false_iff.mpr (fun hs => by simp [hs] at hmm)
  simp [this] at h

theorem simulateGo_total : ∀ (fuel : Nat) (b : Board) (who : Piece)
    (sp : List Move) (e : Nat), who ≠ Piece.empty → emptyCount b ≤ fuel →
    ∃ w sp' e' steps, simulateGo fuel b who sp e = some (w, sp', e', steps) ∧
      steps ≤ emptyCount b
  | fuel, b, who, sp, e, hw, hfuel => by
    cases ht : isTerminalPos b who sp with
    | true =>
      cases fuel with
      | zero => exact ⟨other who, sp, e, 0, by simp [simulateGo, ht], by simp⟩
      | succ f => exact ⟨other who, sp, e, 0, by simp [simulateGo, ht], by simp⟩
    | false =>
      obtain ⟨m, hm, hs⟩ := notTerminal_exists_legal b who sp ht
      obtain ⟨b0, hb0⟩ := Option.isSome_iff_exists.mp hs
      have hdec : emptyCount b0 + 1 = emptyCount b :=
        emptyCount_applyMove b b0 m.1 who hw hb0
      have hpos : 0 < emptyCount b := by omega
      cases fuel with
      | zero => omega
      | succ f =>
        have hmem' : m ∈ (shuffleL sp e).1 :=
          (shuffleL_perm sp e).mem_iff.mpr hm
        have hfirst : (firstLegal b who (shuffleL sp e).1).isSome :=
          firstLegal_isSome b who _ ⟨m, hmem', hs⟩
        obtain ⟨b', hb'⟩ := Option.isSome_iff_exists.mp hfirst
        obtain ⟨m', hm'', hb''⟩ := firstLegal_eq_some b who _ b' hb'
        have hdec' : emptyCount b' + 1 = emptyCount b :=
          emptyCount_applyMove b b' m'.1 who hw hb''
        have hw' : other who ≠ Piece.empty := by
          cases who <;> simp_all [other]
        have hfuel' : emptyCount b' ≤ f := by omega
        obtain ⟨w, spf, ef, steps, hgo, hsteps⟩ :=
          simulateGo_total f b' (other who) (shuffleL sp e).1 (shuffleL sp e).2 hw' hfuel'
        refine ⟨w, spf, ef, steps + 1, ?_, by omega⟩
        simp only [simulateGo, ht, Bool.false_eq_true, if_false, hb', hgo,
          Option.map_some']

theorem getNode_modifyAt_self : ∀ (t : GTree) (i : Nat) (f : ANode → ANode),
    i < t.length → getNode (modifyAt t i f) i = f (getNode t i)
  | [], i, f, h => absurd h (by simp)
  | a :: rest, 0, f, _ => rfl
  | a :: rest, i + 1, f, h => by
    have := getNode_modifyAt_self rest i f (by simpa using Nat.lt_of_succ_lt_succ h)
    simpa [modifyAt, getNode] using this

theorem getNode_modifyAt_ne : ∀ (t : GTree) (i j : Nat) (f : ANode → ANode),
    j ≠ i → getNode (modifyAt t i f) j = getNode t j
  | [], i, j, f, _ => by simp [modifyAt]
  | a :: rest, 0, 0, f, h => absurd rfl h
  | a :: rest, 0, j + 1, f, _ => rfl
  | a :: rest, i + 1, 0, f, _ => rfl
  | a :: rest, i + 1, j + 1, f, h => by
    have := getNode_modifyAt_ne rest i j f (fun hj => h (by omega))
    simpa [modifyAt, getNode] using this

theorem modifyAt_length : ∀ (t : GTree) (i : Nat) (f : ANode → ANode),
    (modifyAt t i f).length = t.length
  | [], _, _ => rfl
  | a :: rest, 0, f => rfl
  | a :: rest, i + 1, f => by
    simpa [modifyAt] using modifyAt_length rest i f

theorem getNode_append_left (t u : GTree) (i : Nat) (h : i < t.length) :
    getNode (t ++ u) i = getNode t i := by
  unfold getNode
  rw [List.getD_eq_getElem?_getD, List.getD_eq_getElem?_getD,
    List.getElem?_append_left h]

theorem getNode_append_right (t u : GTree) (i : Nat) (h : t.length ≤ i) :
    getNode (t ++ u) i = getNode u (i - t.length) := by
  unfold getNode
  rw [List.getD_eq_getElem?_getD, List.getD_eq_getElem?_getD,
    List.getElem?_append_right h]

theorem headD_mem (l : List α) (d : α) (h : l ≠ []) : l.headD d ∈ l := by
  cases l with
  | nil => exact absurd rfl h
  | cons a rest => simp [List.headD]

theorem vOf_bumpV_self : ∀ (tbl : Table) (m : Move) (r : Nat),
    vOf (bumpV tbl m r) m = ⟨(vOf tbl m).total + 1, (vOf tbl m).win + r⟩
  | [], m, r => by simp [bumpV, vOf]
  | (k, v) :: rest, m, r => by
    by_cases hk : k = m
    · subst hk
      simp [bumpV, vOf]
    · simp only [bumpV, vOf, if_neg hk]
      exact vOf_bumpV_self rest m r

theorem vOf_bumpV_ne : ∀ (tbl : Table) (m m' : Move) (r : Nat), m' ≠ m →
    vOf (bumpV tbl m r) m' = vOf tbl m'
  | [], m, m', r, h => by
    have hne : ¬(m = m') := fun he => h he.symm
    simp [bumpV, vOf, hne]
  | (k, v) :: rest, m, m', r, h => by
    by_cases hk : k = m
    · subst hk
      have hne : ¬(k = m') := fun he => h he.symm
      simp [bumpV, vOf, hne]
    · simp only [bumpV, if_neg hk, vOf]
      by_cases hk' : k = m'
      · simp [hk']
      · simp only [if_neg hk']
        exact vOf_bumpV_ne rest m m' r h

theorem vOf_touchV : ∀ (tbl : Table) (m m' : Move),
    vOf (touchV tbl m) m' = vOf tbl m'
  | [], m, m' => by
    by_cases h : m = m' <;> simp [touchV, vOf, h]
  | (k, v) :: rest, m, m' => by
    by_cases hk : k = m
    · simp [touchV, hk]
    · simp only [touchV, if_neg hk, vOf]
      by_cases hk' : k = m'
      · simp [hk']
      · simp only [if_neg hk']
        exact vOf_touchV rest m m'

theorem scoredChildren_not_zero (zeroV : α → Bool) :
    ∀ (cs : List α) (c : α), c ∈ scoredChildren zeroV cs → zeroV c = false
  | [], c, h => absurd h (by simp [scoredChildren])
  | a :: rest, c, h => by
    unfold scoredChildren at h
    by_cases hz : zeroV a
    · simp [hz] at h
    · rw [if_neg hz] at h
      rcases List.mem_cons.mp h with he | hm
      · subst he
        exact Bool.eq_false_iff.mpr hz
      · exact scoredChildren_not_zero zeroV rest c hm

theorem selectScan_finds_zero (score : α → ℚ) (zeroV : α → Bool) :
    ∀ (cs : List α) (c : α), cs.find? zeroV = some c →
    ∀ (bu : ℚ) (best : Option α), selectScan score zeroV cs bu best = some c
  | [], c, h, _, _ => by simp at h
  | a :: rest, c, h, bu, best => by
    unfold selectScan
    by_cases hz : zeroV a
    · rw [List.find?_cons_of_pos _ hz] at h
      simp only [Option.some.injEq] at h
      subst h
      simp [hz]
    · rw [List.find?_cons_of_neg _ hz] at h
      rw [if_neg (by simp [hz])]
      by_cases hlt : bu < score a
      · rw [if_pos hlt]
        exact selectScan_finds_zero score zeroV rest c h bu (some a)
      · rw [if_neg hlt]
        exact selectScan_finds_zero score zeroV rest c h bu best

/-- Claim C10: `use_time[ply]` at the start of every search is an
unchecked index into the 36-entry budget table; `ply` is 0 after
`open_episode` and increments once per search-mode `take_action`, so the
k-th such call reads index `k - 1`, which is inside the table exactly
when `k ≤ 36` — the 37th call indexes past the end. -/
theorem use_time_index_bounds (k : Nat) (hk : 1 ≤ k) :
    use_time.length = 36 ∧
    (runSearchCalls (k - 1) open_episode_ply).ply = k - 1 ∧
    ((runSearchCalls (k - 1) open_episode_ply).ply < use_time.length ↔ k ≤ 36) := by
  have hrun : ∀ (n : Nat) (s : MState), (runSearchCalls n s).ply = s.ply + n := by
    intro n
    induction n with
    | zero => intro s; simp [runSearchCalls]
    | succ n ih =>
      intro s
      rw [runSearchCalls, ih]
      simp [take_action_step]
      omega
  have hlen : use_time.length = 36 := by rfl
  refine ⟨hlen, ?_, ?_⟩
  · rw [hrun]
    simp [open_episode_ply]
  · rw [hrun, hlen]
    simp [open_episode_ply]
    omega

theorem use_time_index_bounds_witness :
    1 ≤ 37 ∧
    (use_time.length = 36 ∧
     (runSearchCalls (37 - 1) open_episode_ply).ply = 37 - 1 ∧
     ((runSearchCalls (37 - 1) open_episode_ply).ply < use_time.length ↔ 37 ≤ 36)) :=
  ⟨by decide, use_time_index_bounds 37 (by decide)⟩

/-- Claim C9: a rollout from any state terminates — fuel equal to the
number of empty cells always suffices — and the number of moves it plays
is at most the number of empty cells at rollout start, because every
legal placement strictly decreases the number of empty cells. -/
theorem rollout_terminates_within_empty_cells (fuel : Nat) (b : Board)
    (who : Piece) (sp : List Move) (e : Nat)
    (hw : who ≠ Piece.empty) (hfuel : emptyCount b ≤ fuel) :
    (∃ w sp' e' steps, simulateGo fuel b who sp e = some (w, sp', e', steps) ∧
      steps ≤ emptyCount b) ∧
    (∀ (p : Nat) (b' : Board), applyMove b p who = some b' →
      emptyCount b' + 1 = emptyCount b) :=
  ⟨simulateGo_total fuel b who sp e hw hfuel,
   fun p b' h => emptyCount_applyMove b b' p who hw h⟩

theorem rollout_terminates_witness :
    (Piece.black ≠ Piece.empty ∧ emptyCount w9Board ≤ 2) ∧
    ((∃ w sp' e' steps,
        simulateGo 2 w9Board Piece.black [(0, Piece.black), (1, Piece.black)] 0 =
          some (w, sp', e', steps) ∧ steps ≤ emptyCount w9Board) ∧
     (∀ (p : Nat) (b' : Board), applyMove w9Board p Piece.black = some b' →
        emptyCount b' + 1 = emptyCount w9Board)) :=
  ⟨⟨by decide, by decide⟩,
   rollout_terminates_within_empty_cells 2 w9Board Piece.black
     [(0, Piece.black), (1, Piece.black)] 0 (by decide) (by decide)⟩

/-- Claim C5: during selection, if the shuffled children order contains
a child whose action has zero recorded visits, the scan immediately
returns the first such child, no matter what any score evaluates to. -/
theorem zero_visit_child_selected_first (score : Nat → ℚ) (t : GTree)
    (tbl : Table) (cs0 : List Nat) (e : Nat) (c : Nat)
    (hfind : ((shuffleL cs0 e).1).find? (zeroVisitAt t tbl) = some c) :
    selectBestChild score (zeroVisitAt t tbl) (shuffleL cs0 e).1 = some c :=
  selectScan_finds_zero score (zeroVisitAt t tbl) (shuffleL cs0 e).1 c hfind (-1) none

theorem zero_visit_child_selected_first_witness :
    ((shuffleL [1, 2] 0).1).find? (zeroVisitAt c5Tree c5Tbl) = some 2 ∧
    selectBestChild (fun _ => (0 : ℚ)) (zeroVisitAt c5Tree c5Tbl) (shuffleL [1, 2] 0).1 =
      some 2 :=
  ⟨by decide,
   zero_visit_child_selected_first (fun _ => (0 : ℚ)) c5Tree c5Tbl [1, 2] 0 2 (by decide)⟩

theorem selectScan_picks_last (score : α → ℚ) (zeroV : α → Bool) :
    ∀ (cs : List α) (x : α) (bu : ℚ) (best : Option α),
      (∀ c ∈ cs ++ [x], zeroV c = false) → (∀ c ∈ cs ++ [x], bu < score c) →
      selectScan score zeroV (cs ++ [x]) bu best = some x
  | [], x, bu, best, hz, hgt => by
    have hzx : zeroV x = false := hz x (by simp)
    have hgx : bu < score x := hgt x (by simp)
    simp only [List.nil_append, selectScan, hzx, Bool.false_eq_true, if_false,
      if_pos hgx]
  | a :: cs, x, bu, best, hz, hgt => by
    have hza : zeroV a = false := hz a (by simp)
    have hga : bu < score a := hgt a (by simp)
    have hz' : ∀ c ∈ cs ++ [x], zeroV c = false := fun c hc => hz c (by simp [hc])
    have hgt' : ∀ c ∈ cs ++ [x], bu < score c := fun c hc => hgt c (by simp [hc])
    simp only [List.cons_append, selectScan, hza, Bool.false_eq_true, if_false,
      if_pos hga]
    exact selectScan_picks_last score zeroV cs x bu (some a) hz' hgt'

/-- Claim C1 (the code contradicts it): on a node whose three children
are all visited, with blended scores 1/2, 9/10, 1/5 in scan order, the
selection scan returns the *last* child (score 1/5), not the maximal one
(score 9/10) — the dead write `uct = best_uct;` in `select` (line 228)
never updates `best_uct`, so every child with a score above -1 overwrites
`best_child`. -/
theorem select_scan_picks_last_not_max :
    selectBestChild (scoreOf id id 0 bugTree bugTbl Piece.black)
      (zeroVisitAt bugTree bugTbl) [1, 2, 3] = some 3 ∧
    scoreOf id id 0 bugTree bugTbl Piece.black 3 <
      scoreOf id id 0 bugTree bugTbl Piece.black 2 := by
  have h1 : scoreOf id id 0 bugTree bugTbl Piece.black 1 = 1/2 := by
    norm_num [scoreOf, UCT_RAVE, heuristicBonus, count_around_empty, dirPair,
      probeSame, applyOff, offsetIdx, bIf, weights, vOf, getNode, bugTree, bugTbl,
      oneBoard]
  have h2 : scoreOf id id 0 bugTree bugTbl Piece.black 2 = 9/10 := by
    norm_num [scoreOf, UCT_RAVE, heuristicBonus, count_around_empty, dirPair,
      probeSame, applyOff, offsetIdx, bIf, weights, vOf, getNode, bugTree, bugTbl,
      oneBoard]
  have h3 : scoreOf id id 0 bugTree bugTbl Piece.black 3 = 1/5 := by
    norm_num [scoreOf, UCT_RAVE, heuristicBonus, count_around_empty, dirPair,
      probeSame, applyOff, offsetIdx, bIf, weights, vOf, getNode, bugTree, bugTbl,
      oneBoard]
  have hz : ∀ c ∈ ([1, 2] ++ [3] : List Nat), zeroVisitAt bugTree bugTbl c = false := by
    decide
  have hgt : ∀ c ∈ ([1, 2] ++ [3] : List Nat),
      (-1 : ℚ) < scoreOf id id 0 bugTree bugTbl Piece.black c := by
    intro c hc
    fin_cases hc
    · rw [h1]; norm_num
    · rw [h2]; norm_num
    · rw [h3]; norm_num
  refine ⟨?_, ?_⟩
  · exact selectScan_picks_last (scoreOf id id 0 bugTree bugTbl Piece.black)
      (zeroVisitAt bugTree bugTbl) [1, 2] 3 (-1) none hz hgt
  · rw [h2, h3]
    norm_num

/-- Claim C3 as stated is false: for the child at arena index 3 (parent
at index 2, which is not the root), the score the code computes feeds
the table entry of the *parent's* incoming move (visits 4) into the
exploration numerator, not the entry of the *grandparent's* incoming
move (visits 9) as the claim demands. -/
theorem uct_rave_grandparent_counterexample :
    UCT_RAVE id id 1 raveTbl ((getNode raveTree 3).parent == 0)
      (getNode raveTree 0).total
      (getNode raveTree (getNode raveTree 3).parent).move
      (getNode raveTree 3).move ≠
    specScoreGrand id id 1 raveTbl ((getNode raveTree 3).parent == 0)
      (getNode raveTree 0).total
      (getNode raveTree (getNode raveTree (getNode raveTree 3).parent).parent).move
      (getNode raveTree 3).move := by
  norm_num [UCT_RAVE, specScoreGrand, vOf, getNode, raveTree, raveTbl]

/-- Claim C3 (amended): `winRate` and `childVisits` come from the table
entry keyed on the child's incoming move, and `parentVisits` is the
table visit count of the *parent's* incoming move when the parent is not
the tree root, else the root node's own visits counter. -/
theorem uct_rave_uses_parent_incoming_move (flog fsqrt : ℚ → ℚ) (cQ : ℚ)
    (tbl : Table) (parentIsRoot : Bool) (rootTotal : Nat)
    (parentMove childMove : Move) :
    UCT_RAVE flog fsqrt cQ tbl parentIsRoot rootTotal parentMove childMove =
      specScoreParent flog fsqrt cQ tbl parentIsRoot rootTotal parentMove childMove := by
  unfold UCT_RAVE specScoreParent
  cases parentIsRoot with
  | false => simp
  | true => simp

/-- Claim C7: throughout a search, every table entry keeps
`wins <= visits`; an entry's visits count never decreases under any
table operation the search performs, and it changes only through a
backpropagation `record` for that entry's move — the defaulting
`operator[]` reads of selection leave every stored statistic intact. -/
theorem action_stats_invariant : ∀ (ops : List TOp) (tbl : Table),
    tblInv tbl → (∀ op ∈ ops, resBounded op = true) →
    tblInv (applyTOps tbl ops) ∧
    (∀ m : Move, (vOf tbl m).total ≤ (vOf (applyTOps tbl ops) m).total) ∧
    (∀ m : Move, (∀ r : Nat, TOp.record m r ∉ ops) →
      vOf (applyTOps tbl ops) m = vOf tbl m)
  | [], tbl, hInv, _ => ⟨hInv, fun _ => le_refl _, fun _ _ => rfl⟩
  | op :: rest, tbl, hInv, hb => by
    have hbop : resBounded op = true := hb op (by simp)
    have hbrest : ∀ o ∈ rest, resBounded o = true := fun o ho => hb o (by simp [ho])
    have hstep : tblInv (applyTOp tbl op) ∧
        (∀ m : Move, (vOf tbl m).total ≤ (vOf (applyTOp tbl op) m).total) := by
      cases op with
      | record mv r =>
        have hr : r ≤ 1 := by simpa [resBounded] using hbop
        constructor
        · intro m'
          by_cases hm : m' = mv
          · subst hm
            show (vOf (bumpV tbl m' r) m').win ≤ (vOf (bumpV tbl m' r) m').total
            rw [vOf_bumpV_self]
            show (vOf tbl m').win + r ≤ (vOf tbl m').total + 1
            have := hInv m'
            omega
          · show (vOf (bumpV tbl mv r) m').win ≤ (vOf (bumpV tbl mv r) m').total
            rw [vOf_bumpV_ne tbl mv m' r hm]
            exact hInv m'
        · intro m'
          by_cases hm : m' = mv
          · subst hm
            show (vOf tbl m').total ≤ (vOf (bumpV tbl m' r) m').total
            rw [vOf_bumpV_self]
            show (vOf tbl m').total ≤ (vOf tbl m').total + 1
            omega
          · show (vOf tbl m').total ≤ (vOf (bumpV tbl mv r) m').total
            rw [vOf_bumpV_ne tbl mv m' r hm]
      | touch mv =>
        constructor
        · intro m'
          show (vOf (touchV tbl mv) m').win ≤ (vOf (touchV tbl mv) m').total
          rw [vOf_touchV]
          exact hInv m'
        · intro m'
          show (vOf tbl m').total ≤ (vOf (touchV tbl mv) m').total
          rw [vOf_touchV]
    obtain ⟨ih1, ih2, ih3⟩ :=
      action_stats_invariant rest (applyTOp tbl op) hstep.1 hbrest
    refine ⟨ih1, fun m => le_trans (hstep.2 m) (ih2 m), ?_⟩
    intro m hnot
    have hnotrest : ∀ r : Nat, TOp.record m r ∉ rest := by
      intro r hr
      exact hnot r (by simp [hr])
    show vOf (applyTOps (applyTOp tbl op) rest) m = vOf tbl m
    rw [ih3 m hnotrest]
    cases op with
    | touch mv => exact vOf_touchV tbl mv m
    | record mv r =>
      have hm : m ≠ mv := by
        intro he
        subst he
        exact hnot r (by simp)
      exact vOf_bumpV_ne tbl mv m r hm

theorem action_stats_invariant_witness :
    (tblInv ([] : Table) ∧ ∀ op ∈ c7Ops, resBounded op = true) ∧
    (tblInv (applyTOps [] c7Ops) ∧
     (∀ m : Move, (vOf ([] : Table) m).total ≤ (vOf (applyTOps [] c7Ops) m).total) ∧
     (∀ m : Move, (∀ r : Nat, TOp.record m r ∉ c7Ops) →
       vOf (applyTOps [] c7Ops) m = vOf ([] : Table) m)) :=
  ⟨⟨fun _ => Nat.le_refl 0, by decide⟩,
   action_stats_invariant c7Ops [] (fun _ => Nat.le_refl 0) (by decide)⟩

/-- Claim C2 (amended, descent half): during tree descent, every child
whose win rate the scan reads (every scored child) has a nonzero visits
count in the table — the zero-visit short-circuit fires first. -/
theorem descent_reads_have_visits (t : GTree) (tbl : Table) (cs : List Nat)
    (c : Nat) (hc : c ∈ scoredChildren (zeroVisitAt t tbl) cs) :
    (vOf tbl (getNode t c).move).total ≠ 0 := by
  have h := scoredChildren_not_zero (zeroVisitAt t tbl) cs c hc
  unfold zeroVisitAt at h
  simpa using h

theorem descent_reads_have_visits_witness :
    1 ∈ scoredChildren (zeroVisitAt c5Tree c5Tbl) [1] ∧
    (vOf c5Tbl (getNode c5Tree 1).move).total ≠ 0 :=
  ⟨by decide, descent_reads_have_visits c5Tree c5Tbl [1] 1 (by decide)⟩

/-- Claim C2 as stated is false for the final root scoring: after a
single-iteration search on `c2Board` (black has two legal root moves and
only one gets simulated), the root has a child (arena index 1, action
`(2, black)`) whose table entry still reads `(0, 0)` — `take_action`'s
final loop computes its win rate `0/0` anyway, since it has no
zero-visit guard. -/
theorem final_scoring_reads_zero_visits :
    c2Run = some c2St ∧
    1 ∈ (getNode c2St.tree 0).children ∧
    vOf c2St.tbl (getNode c2St.tree 1).move = ⟨0, 0⟩ := by
  refine ⟨by decide, by decide, by decide⟩

/-- Claim C6 as stated is false: on `c6Board` black (to move) has no
legal placement, so the first cycle's expansion yields no children and
the simulation runs on the root itself; backpropagation then leaves the
table completely empty (no entry at all, rather than exactly one with
one visit) and — the rollout being lost — the root's win counter rises
by 0, not 1 (its visit counter does rise by 1). -/
theorem one_cycle_counterexample :
    c6Run = some c6St ∧ c6St.tbl = [] ∧
    (getNode c6St.tree 0).total = 1 ∧ (getNode c6St.tree 0).win = 0 := by
  refine ⟨by decide, by decide, by decide, by decide⟩

/-- Claim C8: the whole search loop threads the one seeded engine
explicitly through selection, expansion choice and rollouts, and (with
the fixed iteration count `n` in place of the wall-clock cutoff) depends
on nothing but the seed, the iteration count and the root state: runs
with equal seeds produce bit-identical trees, statistics tables and
chosen moves. -/
theorem search_deterministic (flog fsqrt : ℚ → ℚ) (cQ : ℚ) (n : Nat)
    (seed1 seed2 : Nat) (b : Board) (whoC : Piece) (hseed : seed1 = seed2) :
    fullSearch flog fsqrt cQ n seed1 b whoC =
      fullSearch flog fsqrt cQ n seed2 b whoC := by
  rw [hseed]

theorem search_deterministic_witness :
    5 = 5 ∧
    fullSearch id id 1 2 5 c6Board Piece.black =
      fullSearch id id 1 2 5 c6Board Piece.black :=
  ⟨rfl, search_deterministic id id 1 2 5 5 c6Board Piece.black rfl⟩

theorem offsetIdx_inj (b : Board) (p : Nat) (dr1 dc1 dr2 dc2 : Int) (q : Nat)
    (h1 : offsetIdx b p dr1 dc1 = some q) (h2 : offsetIdx b p dr2 dc2 = some q) :
    dr1 = dr2 ∧ dc1 = dc2 := by
  simp only [offsetIdx] at h1 h2
  split at h1
  case isFalse => exact absurd h1 (by simp)
  case isTrue hc1 =>
    split at h2
    case isFalse => exact absurd h2 (by simp)
    case isTrue hc2 =>
      simp only [Option.some.injEq] at h1 h2
      obtain ⟨ha1, hb1, hc1', hd1⟩ := hc1
      obtain ⟨ha2, hb2, hc2', hd2⟩ := hc2
      have hcol1 : (((p % b.sy : Nat) : Int) + dc1).toNat < b.sy := by omega
      have hcol2 : (((p % b.sy : Nat) : Int) + dc2).toNat < b.sy := by omega
      have hkey := h1.trans h2.symm
      have hmod1 : ((((p / b.sy : Nat) : Int) + dr1).toNat * b.sy +
          (((p % b.sy : Nat) : Int) + dc1).toNat) % b.sy =
          (((p % b.sy : Nat) : Int) + dc1).toNat := by
        rw [Nat.mul_comm, Nat.mul_add_mod, Nat.mod_eq_of_lt hcol1]
      have hmod2 : ((((p / b.sy : Nat) : Int) + dr2).toNat * b.sy +
          (((p % b.sy : Nat) : Int) + dc2).toNat) % b.sy =
          (((p % b.sy : Nat) : Int) + dc2).toNat := by
        rw [Nat.mul_comm, Nat.mul_add_mod, Nat.mod_eq_of_lt hcol2]
      have hBeq : (((p % b.sy : Nat) : Int) + dc1).toNat =
          (((p % b.sy : Nat) : Int) + dc2).toNat := by
        rw [← hmod1, ← hmod2, hkey]
      have hAeq : (((p / b.sy : Nat) : Int) + dr1).toNat =
          (((p / b.sy : Nat) : Int) + dr2).toNat := by
        have hs : 0 < b.sy := by omega
        have hmul : (((p / b.sy : Nat) : Int) + dr1).toNat * b.sy =
            (((p / b.sy : Nat) : Int) + dr2).toNat * b.sy := by omega
        exact Nat.eq_of_mul_eq_mul_right hs hmul
      constructor <;> omega

theorem cellAt_setCell_ne (b : Board) (q q' : Nat) (x : Piece) (h : q' ≠ q) :
    cellAt (setCell b q x) q' = cellAt b q' := by
  unfold cellAt setCell
  simp only
  rw [List.getD_eq_getElem?_getD, List.getD_eq_getElem?_getD,
    List.getElem?_set_ne (fun he => h he.symm)]

/-- Placing the neighbour stone never changes a probe cell at a
different offset. -/
theorem probeSame_applyOff (b b' : Board) (p : Nat) (who : Piece)
    (dr dc pr pc : Int) (hne : (dr, dc) ≠ (pr, pc))
    (h : applyOff b p dr dc who = some b') :
    probeSame b' p pr pc who = probeSame b p pr pc who := by
  unfold applyOff at h
  cases ho : offsetIdx b p dr dc with
  | none => rw [ho] at h; exact absurd h (by simp)
  | some q =>
    rw [ho] at h
    simp only [Option.some_bind] at h
    obtain ⟨hb', hlt, hcell⟩ := applyMove_eq_some b q who b' h
    subst hb'
    unfold probeSame
    have hoff : offsetIdx (setCell b q who) p pr pc = offsetIdx b p pr pc := rfl
    rw [hoff]
    cases ho' : offsetIdx b p pr pc with
    | none => rfl
    | some q' =>
      have hqq : q' ≠ q := by
        intro he
        subst he
        obtain ⟨hd1, hd2⟩ := offsetIdx_inj b p dr dc pr pc q' ho ho'
        exact hne (by rw [hd1, hd2])
      show (cellAt (setCell b q who) q' == who) = (cellAt b q' == who)
      rw [cellAt_setCell_ne b q q' who hqq]

/-- The direction block, re-expressed with the probes on the original
board: legal neighbour placement contributes 1 to the empty count and a
same-colour count read off the unmodified parent state. -/
theorem dirPair_eq (b : Board) (p : Nat) (who : Piece) (dr dc : Int)
    (o1 o2 o3 : Int × Int) (h1 : (dr, dc) ≠ o1) (h2 : (dr, dc) ≠ o2)
    (h3 : (dr, dc) ≠ o3) :
    dirPair b p who dr dc o1 o2 o3 =
      (bIf (applyOff b p dr dc who).isSome,
       if (applyOff b p dr dc who).isSome then probeCount3 b p o1 o2 o3 who
       else 0) := by
  unfold dirPair
  cases ha : applyOff b p dr dc who with
  | none => simp [bIf]
  | some afterB =>
    have p1 := probeSame_applyOff b afterB p who dr dc o1.1 o1.2 (by simpa using h1) ha
    have p2 := probeSame_applyOff b afterB p who dr dc o2.1 o2.2 (by simpa using h2) ha
    have p3 := probeSame_applyOff b afterB p who dr dc o3.1 o3.2 (by simpa using h3) ha
    simp [bIf, probeCount3, p1, p2, p3]

/-- Claim C4 (amended): the bonus the code adds equals, over the four
directions, 0.01 per *legal* own-stone neighbour placement, plus — for
the up, down and left directions only, the right direction's weight term
being skipped by the `i < 4` loop bound — `weights[c] * c` where `c`
counts the same-colour stones at that direction's probe offsets (the
placed neighbour stone never sits on a probe cell, so the counts are
those of the unmodified parent state). -/
theorem heuristic_bonus_amended (b : Board) (p : Nat) (who : Piece) :
    heuristicBonus (count_around_empty b p who) = amendedBonusC4 b p who := by
  unfold heuristicBonus count_around_empty amendedBonusC4
  rw [dirPair_eq b p who (-1) 0 (-1, -1) (-1, 1) (-2, 0) (by decide) (by decide) (by decide)]
  rw [dirPair_eq b p who 1 0 (1, -1) (1, 1) (2, 0) (by decide) (by decide) (by decide)]
  rw [dirPair_eq b p who 0 (-1) (-1, -1) (1, -1) (0, -2) (by decide) (by decide) (by decide)]
  rw [dirPair_eq b p who 0 1 (-1, 1) (1, 1) (0, 2) (by decide) (by decide) (by decide)]
  cases (applyOff b p (-1) 0 who).isSome <;>
    cases (applyOff b p 1 0 who).isSome <;>
      cases (applyOff b p 0 (-1) who).isSome <;>
        cases (applyOff b p 0 1 who).isSome <;>
          · simp [bIf, weights]
            try push_cast
            try ring

/-- Claim C4 as stated is false at `c4Board` (black stones at cells 8
and 10), candidate move at cell 5: the code's bonus is 21/100 — it
multiplies each direction's weight by the probe count (0.14 for the
two-stone direction) and drops the right direction's weight term — while
the claimed bonus (0.01 per empty neighbour plus the bare weights for
all four directions) is 17/100. -/
theorem heuristic_bonus_counterexample :
    heuristicBonus (count_around_empty c4Board 5 Piece.black) ≠
      specBonusC4 c4Board 5 Piece.black := by
  have hc : count_around_empty c4Board 5 Piece.black = [4, 0, 2, 1, 1] := by decide
  have he : emptyNbrCount c4Board 5 = 4 := by decide
  have hp1 : probeCount3 c4Board 5 (-1, -1) (-1, 1) (-2, 0) Piece.black = 0 := by decide
  have hp2 : probeCount3 c4Board 5 (1, -1) (1, 1) (2, 0) Piece.black = 2 := by decide
  have hp3 : probeCount3 c4Board 5 (-1, -1) (1, -1) (0, -2) Piece.black = 1 := by decide
  have hp4 : probeCount3 c4Board 5 (-1, 1) (1, 1) (0, 2) Piece.black = 1 := by decide
  rw [hc]
  unfold specBonusC4
  rw [he, hp1, hp2, hp3, hp4]
  norm_num [heuristicBonus, weights]

theorem other_ne_empty (who : Piece) (hw : who ≠ Piece.empty) :
    other who ≠ Piece.empty := by
  cases who with
  | empty => exact absurd rfl hw
  | black => simp [other]
  | white => simp [other]

theorem simulationFrom_total (cs : Board) (who whoC : Piece) (sp : List Move)
    (e : Nat) (hw : who ≠ Piece.empty) :
    ∃ res spf ef, simulationFrom cs who whoC sp e = some (res, spf, ef) ∧ res ≤ 1 := by
  obtain ⟨w, sp', e', steps, hgo, _⟩ :=
    simulateGo_total (emptyCount cs) cs (other who) sp e (other_ne_empty who hw)
      (le_refl _)
  refine ⟨(if w == whoC then 1 else 0), sp', e', ?_, ?_⟩
  · unfold simulationFrom
    rw [hgo]
    rfl
  · cases h : (w == whoC) <;> simp

theorem backpropGo_one_step (fuel : Nat) (t : GTree) (tbl : Table) (ci : Nat)
    (res : Nat) (hci : ci ≠ 0) (hpar : (getNode t ci).parent = 0) :
    backpropGo (fuel + 2) t tbl ci res = bumpV tbl (getNode t ci).move res := by
  show backpropGo (fuel + 1 + 1) t tbl ci res = _
  unfold backpropGo
  rw [if_neg hci, hpar]
  unfold backpropGo
  rw [if_pos rfl]

theorem expandAt_root (b : Board) (who : Piece) (sp : List Move) :
    expandAt [rootNode b] 0 who sp =
      { rootNode b with
          children := (List.range (expandLegal b who sp).length).map (fun i => i + 1) } ::
      (expandLegal b who sp).map (fun mb =>
        { total := 0, win := 0, move := mb.1, parent := 0, children := [],
          state := mb.2 : ANode }) := by
  unfold expandAt
  simp [modifyAt, getNode, rootNode]

/-- Claim C6 (amended): one full cycle from a root-only tree increments
the root's own visit counter by exactly 1 and its win counter by the
simulation result `r` (1 if the rollout was won, else 0); when the
expansion produced children, the table afterwards holds exactly one
entry — keyed by the simulated child's incoming move — with one visit
and `r` wins; when the root proved terminal (no children), the
simulation runs on the root itself and the table stays empty. -/
theorem one_cycle_backprop_effect (flog fsqrt : ℚ → ℚ) (cQ : ℚ) (b : Board)
    (whoC : Piece) (sp : List Move) (e : Nat) (hw : whoC ≠ Piece.empty) :
    ∃ st' r, mctsIter flog fsqrt cQ ⟨[rootNode b], [], sp, e, whoC⟩ = some st' ∧
      r ≤ 1 ∧ (getNode st'.tree 0).total = 1 ∧ (getNode st'.tree 0).win = r ∧
      (((getNode st'.tree 0).children = [] ∧ st'.tbl = []) ∨
        (∃ ci ∈ (getNode st'.tree 0).children,
          st'.tbl = [((getNode st'.tree ci).move, ⟨1, r⟩)])) := by
  have hsel : selectGo flog fsqrt cQ [rootNode b].length [rootNode b] [] 0 whoC e =
      some ([rootNode b], 0, whoC, e) := rfl
  unfold mctsIter
  dsimp only
  rw [hsel]
  dsimp only
  rw [expandAt_root]
  cases hE : expandLegal b whoC sp with
  | nil =>
    simp only [hE, List.length_nil, List.range_zero, List.map_nil]
    obtain ⟨res, spf, ef, hsim, hres⟩ := simulationFrom_total b whoC whoC sp e hw
    simp only [rootNode, getNode, List.getD_cons_zero, if_pos rfl]
    rw [hsim]
    dsimp only
    refine ⟨_, res, rfl, hres, ?_, ?_, ?_⟩
    · simp [backpropagate, modifyAt, getNode, rootNode]
    · simp [backpropagate, modifyAt, getNode, rootNode]
    · left
      constructor
      · simp [backpropagate, modifyAt, getNode, rootNode]
      · simp [backpropagate, backpropGo, modifyAt, getNode, rootNode]
  | cons m0 L' =>
    set idxs : List Nat := List.map (fun i => i + 1) (List.range (m0 :: L').length) with hidxs
    set NN : GTree := List.map (fun mb =>
      ({ total := 0, win := 0, move := mb.1, parent := 0, children := [],
         state := mb.2 } : ANode)) (m0 :: L') with hNN
    set HD : ANode := { rootNode b with children := idxs } with hHD
    have hg0 : getNode (HD :: NN) 0 = HD := rfl
    have hcond : ¬((getNode (HD :: NN) 0).children = []) := by
      rw [hg0, hHD]
      intro hc
      have hlc := congrArg List.length hc
      simp [hidxs] at hlc
    rw [if_neg hcond]
    set kids : List Nat := (shuffleL idxs e).1 with hkids
    have hrc : random_child (HD :: NN) 0 e =
        (modifyAt (HD :: NN) 0 (fun a => { a with children := kids }),
         kids.headD 0, (shuffleL idxs e).2) := rfl
    rw [hrc]
    dsimp only
    set ci : Nat := kids.headD 0 with hcidef
    have hperm : kids.Perm idxs := shuffleL_perm idxs e
    have hkne : kids ≠ [] := by
      intro hknil
      rw [hknil] at hperm
      have hl := hperm.length_eq
      simp [hidxs] at hl
    have hcimem : ci ∈ kids := headD_mem kids 0 hkne
    have hciidxs : ci ∈ idxs := hperm.mem_iff.mp hcimem
    have hex : ∃ j, j < (m0 :: L').length ∧ j + 1 = ci := by
      rw [hidxs] at hciidxs
      simpa [List.mem_map, List.mem_range] using hciidxs
    obtain ⟨j, hjlt, hjy⟩ := hex
    have hcine : ci ≠ 0 := by omega
    have hg_ci : getNode (modifyAt (HD :: NN) 0
        (fun a => { a with children := kids })) ci = getNode NN j := by
      rw [getNode_modifyAt_ne _ _ _ _ hcine, ← hjy]
      rfl
    have hNNj : getNode NN j =
        { total := 0, win := 0, move := ((m0 :: L').get ⟨j, hjlt⟩).1, parent := 0,
          children := [], state := ((m0 :: L').get ⟨j, hjlt⟩).2 } := by
      rw [hNN]
      unfold getNode
      rw [List.getD_eq_getElem?_getD, List.getElem?_eq_getElem (by simpa using hjlt)]
      simp only [Option.getD_some, List.get_eq_getElem]
      cases j with
      | zero => rfl
      | succ j' => simp [List.getElem_cons_succ, List.getElem_map]
    obtain ⟨res, spf, ef, hsim, hres⟩ :=
      simulationFrom_total ((m0 :: L').get ⟨j, hjlt⟩).2 whoC whoC sp
        (shuffleL idxs e).2 hw
    rw [hg_ci, hNNj]
    dsimp only
    rw [hsim]
    dsimp only
    unfold backpropagate
    have hlen : (modifyAt (HD :: NN) 0
        (fun a => { a with children := kids })).length = L'.length + 2 := by
      rw [modifyAt_length]
      simp [hNN]
    have hpar : (getNode (modifyAt (HD :: NN) 0
        (fun a => { a with children := kids })) ci).parent = 0 := by
      rw [hg_ci, hNNj]
    have htbl : backpropGo (modifyAt (HD :: NN) 0
          (fun a => { a with children := kids })).length
        (modifyAt (HD :: NN) 0 (fun a => { a with children := kids })) [] ci res =
        [((getNode NN j).move, ⟨1, res⟩)] := by
      rw [hlen, backpropGo_one_step L'.length _ [] ci res hcine hpar, hg_ci]
      rfl
    rw [htbl]
    refine ⟨_, res, rfl, hres, ?_, ?_, ?_⟩
    · dsimp only
      rw [getNode_modifyAt_self _ _ _ (by rw [hlen]; omega)]
      rw [getNode_modifyAt_self _ _ _ (by simp)]
      rw [hg0]
      simp [hHD, rootNode]
    · dsimp only
      rw [getNode_modifyAt_self _ _ _ (by rw [hlen]; omega)]
      rw [getNode_modifyAt_self _ _ _ (by simp)]
      rw [hg0]
      simp [hHD, rootNode]
    · right
      refine ⟨ci, ?_, ?_⟩
      · dsimp only
        rw [getNode_modifyAt_self _ _ _ (by rw [hlen]; omega)]
        rw [getNode_modifyAt_self _ _ _ (by simp)]
        rw [hg0]
        simpa [hHD, rootNode] using hcimem
      · dsimp only
        rw [getNode_modifyAt_ne _ _ _ _ hcine, hg_ci]

theorem one_cycle_backprop_effect_witness :
    Piece.black ≠ Piece.empty ∧
    (∃ st' r, mctsIter id id 1
        ⟨[rootNode c2Board], [], initSpace c2Board Piece.black, 1, Piece.black⟩ =
          some st' ∧
      r ≤ 1 ∧ (getNode st'.tree 0).total = 1 ∧ (getNode st'.tree 0).win = r ∧
      (((getNode st'.tree 0).children = [] ∧ st'.tbl = []) ∨
        (∃ ci ∈ (getNode st'.tree 0).children,
          st'.tbl = [((getNode st'.tree ci).move, ⟨1, r⟩)]))) :=
  ⟨by decide,
   one_cycle_backprop_effect id id 1 c2Board Piece.black
     (initSpace c2Board Piece.black) 1 (by decide)⟩
